import Mathlib

/-!
Shallow embedding of `tooling/noir_js_backend_barretenberg/src/index.ts`.

Byte buffers (`Uint8Array`) are modelled as `List Nat` whose entries are
meant to be `< 256`; hex strings are modelled as the list of their hex
digits (each `< 16`) after the `0x` prefix, since every hex string in this
module is consumed by `BigInt(hex)`, which parses a `0x`-prefixed string to
its numeric value.  JavaScript numbers appearing here are witness indices
and lengths, all non-negative integers, modelled as `Nat` (with `Int`
used at the one place where a JS subtraction can go negative).
Operations that throw in JavaScript are modelled with `Option`, `none`
standing for an exception escaping the function.
-/

namespace Noir

/-- Evaluate a digit string in base `b` starting from accumulator `a`
(Horner's rule, most significant digit first). -/
def foldBase (b a : Nat) (l : List Nat) : Nat :=
  l.foldl (fun x d => b * x + d) a

/-- Numeric value of a hex digit string: the semantics of `BigInt('0x' + s)`. -/
def hexDigitsToNat (l : List Nat) : Nat := foldBase 16 0 l

/-- Numeric value of a byte string read big-endian.  Used to state what
"a 32-byte big-endian encoding of v" means. -/
def bytesToNat (l : List Nat) : Nat := foldBase 256 0 l

/-- Fuelled base-`b` digit expansion, most significant digit first.
`acc` collects digits already produced (least significant side). -/
def toBaseAux (b : Nat) : Nat → Nat → List Nat → List Nat
  | 0, _, acc => acc
  | fuel + 1, n, acc =>
    if n = 0 then acc else toBaseAux b fuel (n / b) (n % b :: acc)

/-- Digit string of `n` in base `b`, no leading zeros, `[0]` for zero:
the semantics of JavaScript `n.toString(b)` for a non-negative integer. -/
def toBaseDigits (b n : Nat) : List Nat :=
  if n = 0 then [0] else toBaseAux b n n []

/-- `BigInt.prototype.toString(16)`. -/
def natToHex (n : Nat) : List Nat := toBaseDigits 16 n

/-- `Number.prototype.toString()` (decimal), used implicitly by the default
`Array.prototype.sort()` comparator. -/
def decDigits (n : Nat) : List Nat := toBaseDigits 10 n

/-- Lexicographic `≤` on digit strings: the code-unit string comparison the
default `Array.prototype.sort()` comparator performs (digit characters
compare like the digits themselves). -/
def strLe : List Nat → List Nat → Bool
  | [], _ => true
  | _ :: _, [] => false
  | a :: as, b :: bs => if a < b then true else if b < a then false else strLe as bs

/-- The default-sort comparison on numbers: compare their decimal strings. -/
def jsLe (a b : Nat) : Bool := strLe (decDigits a) (decDigits b)

/-- Stable insertion into a sorted list (helper for `sortBy`). -/
def insertBy (le : Nat → Nat → Bool) (a : Nat) : List Nat → List Nat
  | [] => [a]
  | b :: l => if le a b then a :: b :: l else b :: insertBy le a l

/-- Stable sort by the comparison `le`.  ECMA-262 only requires `sort` to
produce a stable, comparator-sorted permutation; for a total preorder that
output is unique, so stable insertion sort is a faithful model. -/
def sortBy (le : Nat → Nat → Bool) : List Nat → List Nat
  | [] => []
  | a :: l => insertBy le a (sortBy le l)

/-- `array.sort()` with the default comparator, on an array of numbers. -/
def jsSort (l : List Nat) : List Nat := sortBy jsLe l

/-- Helper for `dedupFirst`: drop elements already in `seen`. -/
def dedupFirstAux : List Nat → List Nat → List Nat
  | [], _ => []
  | a :: l, seen =>
    if a ∈ seen then dedupFirstAux l seen else a :: dedupFirstAux l (a :: seen)

/-- `[...new Set(list)]`: deduplicate keeping the first occurrence of each
element, in insertion order. -/
def dedupFirst (l : List Nat) : List Nat := dedupFirstAux l []

/-- Hex digits contributed by one byte in `uint8ArrayToHex`:
`i.toString(16)`, left-padded with one `'0'` when its length is odd. -/
def byteToHexDigits (i : Nat) : List Nat :=
  let h := natToHex i
  if h.length % 2 = 1 then 0 :: h else h

/-- `uint8ArrayToHex` (index.ts:233-245), as the digit string after the
returned `'0x'` prefix. -/
def uint8ArrayToHex (buffer : List Nat) : List Nat :=
  buffer.flatMap byteToHexDigits

/-- `String.prototype.padStart(64, '0')`: left-pad with zeros to length 64
(a longer string is returned unchanged; `Nat` subtraction encodes that). -/
def padStart64 (l : List Nat) : List Nat :=
  List.replicate (64 - l.length) 0 ++ l

/-- The byte-filling loop of `hexToUint8Array`: consecutive pairs of hex
digits, `u8[i] = parseInt(sanitised_hex.slice(j, j + 2), 16)`.  On an
odd-length string the final iteration writes the lone trailing digit past
the end of the typed array, which JavaScript ignores, so that digit
contributes nothing: the match's fallback drops it. -/
def hexPairsToBytes : List Nat → List Nat
  | d1 :: d2 :: rest => (16 * d1 + d2) :: hexPairsToBytes rest
  | _ => []

/-- `hexToUint8Array` (index.ts:247-262).  The input is the hex digit string
handed to `BigInt`; `hexDigitsToNat` performs that parse.  When
`sanitised_hex` has odd length `L`, `len = L / 2` is fractional; ES2017+
`ToIndex` truncates it, so `new Uint8Array(len)` has `⌊L / 2⌋` elements, and
the loop's final out-of-bounds write is silently ignored.  In every case the
result is the consecutive digit pairs with a lone trailing digit dropped,
i.e. `hexPairsToBytes` of the sanitised string. -/
def hexToUint8Array (hexDigits : List Nat) : List Nat :=
  let sanitised_hex := padStart64 (natToHex (hexDigitsToNat hexDigits))
  hexPairsToBytes sanitised_hex

/-- `flattenUint8Arrays` (index.ts:220-231): allocate `totalLength` and copy
each array at the running offset, i.e. left-to-right concatenation. -/
def flattenUint8Arrays (arrays : List (List Nat)) : List Nat :=
  arrays.foldl (fun acc arr => acc ++ arr) []

/-- One entry of `abi.param_witnesses[name]`: `{ start, end }`. -/
structure WitnessRange where
  start : Nat
  «end» : Nat
deriving DecidableEq

/-- One entry of `abi.parameters` (only the fields this module reads). -/
structure AbiParameter where
  name : String
  visibility : String
deriving DecidableEq

/-- The ABI fields read by `generateProof`.  `param_witnesses` models the
JS object lookup `abi.param_witnesses[param.name]`. -/
structure Abi where
  parameters : List AbiParameter
  param_witnesses : String → List WitnessRange
  return_witnesses : List Nat

/-- `Array.from({ length: end - start }, (_, i) => start + i)`: the indices
of one witness range (empty when `end ≤ start`, as in JS where a negative
length yields an empty array). -/
def rangeWitnesses (witness_range : WitnessRange) : List Nat :=
  (List.range (witness_range.«end» - witness_range.start)).map
    (fun i => witness_range.start + i)

/-- `public_parameter_witnesses` (index.ts:106-111): witness indices of all
parameters with `visibility === 'public'`, ranges flattened in order. -/
def publicParameterWitnesses (abi : Abi) : List Nat :=
  (abi.parameters.filter (fun param => param.visibility = "public")).flatMap
    (fun param => (abi.param_witnesses param.name).flatMap rangeWitnesses)

/-- `public_input_witnesses` (index.ts:115):
`[...new Set(public_parameter_witnesses.concat(return_value_witnesses))].sort()`. -/
def publicInputWitnesses (abi : Abi) : List Nat :=
  jsSort (dedupFirst (publicParameterWitnesses abi ++ abi.return_witnesses))

/-- index.ts:10: bytes in an UltraPlonk proof minus the public inputs. -/
def numBytesInProofWithoutPublicInputs : Nat := 2144

/-- Resolve a (possibly negative) JS `slice` index against a length:
negative indices count from the end, results clamp into `[0, len]`. -/
def jsClampIndex (len : Nat) (i : Int) : Nat :=
  if i < 0 then ((len : Int) + i).toNat else min i.toNat len

/-- `l.slice(0, e)` on a typed array. -/
def jsSliceUpTo (l : List Nat) (e : Int) : List Nat :=
  l.take (jsClampIndex l.length e)

/-- `l.slice(s)` on a typed array. -/
def jsSliceFrom (l : List Nat) (s : Int) : List Nat :=
  l.drop (jsClampIndex l.length s)

/-- Fuelled chunking loop (helper for `chunk32`). -/
def chunk32Aux : Nat → List Nat → List (List Nat)
  | 0, _ => []
  | _ + 1, [] => []
  | fuel + 1, a :: as => (a :: as).take 32 :: chunk32Aux fuel ((a :: as).drop 32)

/-- The loop at index.ts:99-102: for `i = 0, 32, 64, ...` while
`i < l.length`, push `l.slice(i, i + 32)`; the final chunk may be short. -/
def chunk32 (l : List Nat) : List (List Nat) := chunk32Aux l.length l

/-- `ProofData`: `proof` bytes plus the public-input `WitnessMap`.  A JS
`Map` is modelled as its entry list in insertion order; every map this
module builds has pairwise-distinct keys (they come from a `Set`).  Values
are hex strings, modelled as hex digit strings. -/
structure ProofData where
  proof : List Nat
  publicInputs : List (Nat × List Nat)
deriving DecidableEq

/-- The pure tail of `generateProof` (index.ts:92-125): everything after the
native `acirCreateProof` call, as a function of the ABI and the returned
combined buffer.  The `forEach` at index.ts:118-121 reads
`flattenedPublicInputs[index]`; when that index is out of range the JS code
throws (`undefined.forEach`), modelled by `none`. -/
def generateProofPure (abi : Abi) (proofWithPublicInputs : List Nat) : Option ProofData :=
  let splitIndex : Int :=
    (proofWithPublicInputs.length : Int) - (numBytesInProofWithoutPublicInputs : Int)
  let publicInputsConcatenated := jsSliceUpTo proofWithPublicInputs splitIndex
  let flattenedPublicInputs := chunk32 publicInputsConcatenated
  let public_input_witnesses := publicInputWitnesses abi
  if public_input_witnesses.length ≤ flattenedPublicInputs.length then
    some { proof := jsSliceFrom proofWithPublicInputs splitIndex
           publicInputs := (public_input_witnesses.zip flattenedPublicInputs).map
             (fun p => (p.1, uint8ArrayToHex p.2)) }
  else none

/-- `[...map.keys()]`: keys in insertion order. -/
def mapKeys (m : List (Nat × List Nat)) : List Nat := m.map Prod.fst

/-- `map.get(k)`: the value stored under `k` (first entry with that key). -/
def mapGet (m : List (Nat × List Nat)) (k : Nat) : Option (List Nat) :=
  (m.find? (fun p => p.1 == k)).map Prod.snd

/-- `array.map(f)` where `f` may throw: `none` as soon as one call throws. -/
def optionMap (f : Nat → Option (List Nat)) : List Nat → Option (List (List Nat))
  | [] => some []
  | a :: l =>
    match f a, optionMap f l with
    | some b, some bs => some (b :: bs)
    | _, _ => none

/-- `reconstructProofWithPublicInputs` (index.ts:206-218).  A missing key
would make `hexToUint8Array(undefined)` throw inside `BigInt`, hence the
`Option.map` over `mapGet`'s result.  `Uint8Array.from` converts each
element with ToUint8, hence the `% 256`. -/
def reconstructProofWithPublicInputs (proofData : ProofData) : Option (List Nat) :=
  let publicInputIndices := jsSort (mapKeys proofData.publicInputs)
  match optionMap
      (fun index => (mapGet proofData.publicInputs index).map hexToUint8Array)
      publicInputIndices with
  | none => none
  | some flattenedPublicInputs =>
    let publicInputsConcatenated := flattenUint8Arrays flattenedPublicInputs
    some ((publicInputsConcatenated ++ proofData.proof).map (fun b => b % 256))

/-- The native calls `instantiate` and `destroy` can issue. -/
inductive NativeCall where
  | barretenbergNew
  | acirGetCircuitSizes
  | crsNew
  | commonInitSlabAllocator
  | srsInitSrs
  | acirNewAcirComposer
  | acirInitProvingKey
  | apiDestroy
deriving DecidableEq

/-- The mutable fields of `BarretenbergBackend` that control its lifecycle:
whether `this.api` and `this.acirComposer` have been assigned. -/
structure BackendState where
  apiSet : Bool
  composerSet : Bool
deriving DecidableEq

/-- State after the constructor: `api` and `acirComposer` not yet assigned. -/
def initialState : BackendState := { apiSet := false, composerSet := false }

/-- The native setup sequence of `instantiate`, in call order. -/
def setupCalls : List NativeCall :=
  [NativeCall.barretenbergNew, NativeCall.acirGetCircuitSizes, NativeCall.crsNew,
   NativeCall.commonInitSlabAllocator, NativeCall.srsInitSrs,
   NativeCall.acirNewAcirComposer, NativeCall.acirInitProvingKey]

/-- `instantiate` (index.ts:30-46): guarded by `if (!this.api)`; on the
fresh path it runs the whole setup sequence, assigns `acirComposer`, and
assigns `api` last.  Returns the new state and the native calls issued. -/
def instantiate (s : BackendState) : BackendState × List NativeCall :=
  if s.apiSet then (s, [])
  else ({ apiSet := true, composerSet := true }, setupCalls)

/-- `destroy` (index.ts:198-203): `if (!this.api) return;` then
`await this.api.destroy()`.  Neither branch assigns any field, so the
state is returned unchanged; in particular `api` is never cleared. -/
def destroy (s : BackendState) : BackendState × List NativeCall :=
  if s.apiSet then (s, [NativeCall.apiDestroy]) else (s, [])

/-- An ABI with no parameters and no return witnesses (test fixture). -/
def emptyAbi : Abi :=
  { parameters := [], param_witnesses := fun _ => [], return_witnesses := [] }

/-- An ABI whose public witness indices are `{2, 10}` (test fixture). -/
def c2Abi : Abi :=
  { parameters := [], param_witnesses := fun _ => [], return_witnesses := [2, 10] }

/-- An ABI with the single public witness index `0` (test fixture). -/
def c1Abi : Abi :=
  { parameters := [], param_witnesses := fun _ => [], return_witnesses := [0] }

/-- A 66-hex-digit input (value `16 ^ 65`), wider than 32 bytes. -/
def wideHexInput : List Nat := 1 :: List.replicate 65 0

/-- A 65-hex-digit input (value `16 ^ 64`), wider than 32 bytes, whose
minimal hex representation has odd length. -/
def oddWideHexInput : List Nat := 1 :: List.replicate 64 0

/-- Fixture for the flatten theorem's witness. -/
def c9Arrays : List (List Nat) := [[1, 2], [], [3, 4, 5], [6]]

/-! ### Facts about base-`b` digit strings -/

theorem foldBase_nil (b a : Nat) : foldBase b a [] = a := rfl

theorem foldBase_cons (b a d : Nat) (l : List Nat) :
    foldBase b a (d :: l) = foldBase b (b * a + d) l := rfl

theorem foldBase_append (b a : Nat) (l1 l2 : List Nat) :
    foldBase b a (l1 ++ l2) = foldBase b (foldBase b a l1) l2 :=
  List.foldl_append _ _ _ _

theorem foldBase_shift (b : Nat) (l : List Nat) :
    ∀ a, foldBase b a l = a * b ^ l.length + foldBase b 0 l := by
  induction l with
  | nil => intro a; simp [foldBase_nil]
  | cons d l ih =>
    intro a
    rw [foldBase_cons, foldBase_cons, ih (b * a + d), ih (b * 0 + d)]
    simp only [List.length_cons, pow_succ]
    ring

theorem foldBase_lt (b : Nat) (hb : 1 ≤ b) (l : List Nat) (h : ∀ d ∈ l, d < b) :
    foldBase b 0 l < b ^ l.length := by
  induction l with
  | nil => simpa [foldBase_nil] using hb
  | cons d l ih =>
    have hd : d < b := h d (List.mem_cons_self _ _)
    have hR : foldBase b 0 l < b ^ l.length :=
      ih (fun x hx => h x (List.mem_cons_of_mem _ hx))
    rw [foldBase_cons, foldBase_shift]
    have h1 : (b * 0 + d) * b ^ l.length + foldBase b 0 l <
        (d + 1) * b ^ l.length := by
      simp only [Nat.mul_zero, Nat.zero_add, Nat.add_mul, Nat.one_mul]
      omega
    have h2 : (d + 1) * b ^ l.length ≤ b * b ^ l.length :=
      Nat.mul_le_mul_right _ hd
    calc (b * 0 + d) * b ^ l.length + foldBase b 0 l
        < (d + 1) * b ^ l.length := h1
      _ ≤ b * b ^ l.length := h2
      _ = b ^ (d :: l).length := by rw [List.length_cons, pow_succ]; ring

theorem foldBase_inj (b : Nat) (hb : 1 ≤ b) :
    ∀ l1 l2 : List Nat, l1.length = l2.length → (∀ d ∈ l1, d < b) →
      (∀ d ∈ l2, d < b) → foldBase b 0 l1 = foldBase b 0 l2 → l1 = l2 := by
  intro l1
  induction l1 with
  | nil =>
    intro l2 hlen _ _ _
    exact (List.length_eq_zero.mp hlen.symm).symm
  | cons d l ih =>
    intro l2 hlen h1 h2 heq
    cases l2 with
    | nil => simp at hlen
    | cons e m =>
      have hlm : l.length = m.length := by simpa using hlen
      rw [foldBase_cons, foldBase_cons,
        foldBase_shift b l (b * 0 + d), foldBase_shift b m (b * 0 + e)] at heq
      simp only [Nat.mul_zero, Nat.zero_add] at heq
      rw [hlm] at heq
      have hRl : foldBase b 0 l < b ^ m.length := by
        rw [← hlm]
        exact foldBase_lt b hb l (fun x hx => h1 x (List.mem_cons_of_mem _ hx))
      have hRm : foldBase b 0 m < b ^ m.length :=
        foldBase_lt b hb m (fun x hx => h2 x (List.mem_cons_of_mem _ hx))
      have hK : 0 < b ^ m.length := pow_pos (by omega) _
      have hde : d = e := by
        have hdl : (d * b ^ m.length + foldBase b 0 l) / b ^ m.length = d := by
          rw [Nat.mul_comm, Nat.mul_add_div hK, Nat.div_eq_of_lt hRl, Nat.add_zero]
        have hel : (e * b ^ m.length + foldBase b 0 m) / b ^ m.length = e := by
          rw [Nat.mul_comm, Nat.mul_add_div hK, Nat.div_eq_of_lt hRm, Nat.add_zero]
        rw [← hdl, ← hel, heq]
      subst hde
      have hfold : foldBase b 0 l = foldBase b 0 m := by omega
      rw [ih m hlm (fun x hx => h1 x (List.mem_cons_of_mem _ hx))
        (fun x hx => h2 x (List.mem_cons_of_mem _ hx)) hfold]

theorem toBaseAux_zero (b fuel : Nat) (acc : List Nat) :
    toBaseAux b fuel 0 acc = acc := by
  cases fuel <;> simp [toBaseAux]

theorem toBaseAux_fuel (b : Nat) (hb : 2 ≤ b) :
    ∀ n f g acc, n ≤ f → n ≤ g → toBaseAux b f n acc = toBaseAux b g n acc := by
  intro n
  induction n using Nat.strong_induction_on with
  | _ n ih =>
    intro f g acc hf hg
    cases n with
    | zero => rw [toBaseAux_zero, toBaseAux_zero]
    | succ m =>
      cases f with
      | zero => omega
      | succ f' =>
        cases g with
        | zero => omega
        | succ g' =>
          simp only [toBaseAux, Nat.succ_ne_zero, if_false]
          have hlt : (m + 1) / b < m + 1 := Nat.div_lt_self (Nat.succ_pos m) (by omega)
          exact ih _ hlt f' g' _ (by omega) (by omega)

theorem toBaseAux_append (b : Nat) :
    ∀ fuel n acc, toBaseAux b fuel n acc = toBaseAux b fuel n [] ++ acc := by
  intro fuel
  induction fuel with
  | zero => intro n acc; simp [toBaseAux]
  | succ f ih =>
    intro n acc
    by_cases hn : n = 0
    · simp [toBaseAux, hn]
    · simp only [toBaseAux, hn, if_false]
      rw [ih (n / b) (n % b :: acc), ih (n / b) [n % b]]
      simp

theorem toBaseDigits_step (b n : Nat) (hb : 2 ≤ b) (hn : n ≠ 0) :
    toBaseDigits b n =
      (if n / b = 0 then [] else toBaseDigits b (n / b)) ++ [n % b] := by
  cases n with
  | zero => exact absurd rfl hn
  | succ m =>
    simp only [toBaseDigits, Nat.succ_ne_zero, if_false]
    simp only [toBaseAux, Nat.succ_ne_zero, if_false]
    by_cases hq : (m + 1) / b = 0
    · rw [hq, toBaseAux_zero]
      simp
    · rw [if_neg hq]
      have hlt : (m + 1) / b < m + 1 := Nat.div_lt_self (Nat.succ_pos m) (by omega)
      rw [toBaseAux_fuel b hb ((m + 1) / b) m ((m + 1) / b) _ (by omega) (by omega)]
      rw [toBaseAux_append b ((m + 1) / b) ((m + 1) / b) [(m + 1) % b]]
      simp [toBaseDigits, hq]

theorem foldBase_toBaseDigits (b : Nat) (hb : 2 ≤ b) :
    ∀ n, foldBase b 0 (toBaseDigits b n) = n := by
  intro n
  induction n using Nat.strong_induction_on with
  | _ n ih =>
    by_cases hn : n = 0
    · subst hn; simp [toBaseDigits, foldBase]
    · rw [toBaseDigits_step b n hb hn, foldBase_append]
      by_cases hq : n / b = 0
      · have hnb : n < b := by
          rcases Nat.lt_or_ge n b with h | h
          · exact h
          · exact absurd hq (by
              have : 1 ≤ n / b := (Nat.one_le_div_iff (by omega)).mpr h
              omega)
        rw [if_pos hq]
        simp [foldBase, Nat.mod_eq_of_lt hnb]
      · rw [if_neg hq]
        have hlt : n / b < n := Nat.div_lt_self (by omega) (by omega)
        rw [ih (n / b) hlt]
        simp only [foldBase, List.foldl_cons, List.foldl_nil]
        exact Nat.div_add_mod n b

theorem toBaseDigits_mem_lt (b : Nat) (hb : 2 ≤ b) :
    ∀ n, ∀ d ∈ toBaseDigits b n, d < b := by
  intro n
  induction n using Nat.strong_induction_on with
  | _ n ih =>
    intro d hd
    by_cases hn : n = 0
    · subst hn
      simp only [toBaseDigits, if_pos] at hd
      rw [List.mem_singleton] at hd
      omega
    · rw [toBaseDigits_step b n hb hn] at hd
      rcases List.mem_append.mp hd with h | h
      · by_cases hq : n / b = 0
        · rw [if_pos hq] at h; simp at h
        · rw [if_neg hq] at h
          have hlt : n / b < n := Nat.div_lt_self (by omega) (by omega)
          exact ih (n / b) hlt d h
      · rw [List.mem_singleton] at h
        subst h
        exact Nat.mod_lt n (by omega)

theorem toBaseDigits_ne_nil (b n : Nat) (hb : 2 ≤ b) : toBaseDigits b n ≠ [] := by
  by_cases hn : n = 0
  · subst hn; simp [toBaseDigits]
  · rw [toBaseDigits_step b n hb hn]
    simp

theorem toBaseDigits_length_le (b : Nat) (hb : 2 ≤ b) :
    ∀ n k, 1 ≤ k → n < b ^ k → (toBaseDigits b n).length ≤ k := by
  intro n
  induction n using Nat.strong_induction_on with
  | _ n ih =>
    intro k hk hnk
    by_cases hn : n = 0
    · subst hn; simpa [toBaseDigits] using hk
    · rw [toBaseDigits_step b n hb hn]
      by_cases hq : n / b = 0
      · simpa [hq] using hk
      · rw [if_neg hq]
        have hlt : n / b < n := Nat.div_lt_self (by omega) (by omega)
        have hnb : b ≤ n := by
          rcases Nat.lt_or_ge n b with h | h
          · exact absurd hq (by simp [Nat.div_eq_of_lt h])
          · exact h
        have hk2 : 2 ≤ k := by
          rcases Nat.lt_or_ge k 2 with h | h
          · have hkeq : k = 1 := by omega
            subst hkeq
            rw [pow_one] at hnk
            omega
          · exact h
        cases k with
        | zero => omega
        | succ j =>
          have hdiv : n / b < b ^ j := by
            rw [Nat.div_lt_iff_lt_mul (by omega : 0 < b)]
            calc n < b ^ (j + 1) := hnk
              _ = b ^ j * b := by rw [pow_succ]
          have := ih (n / b) hlt j (by omega) hdiv
          simp only [List.length_append, List.length_singleton]
          omega

theorem toBaseDigits_length_ge (b : Nat) (hb : 2 ≤ b) :
    ∀ k n, b ^ k ≤ n → k + 1 ≤ (toBaseDigits b n).length := by
  intro k
  induction k with
  | zero =>
    intro n _
    have := toBaseDigits_ne_nil b n hb
    have := List.length_pos.mpr this
    omega
  | succ j ih =>
    intro n hkn
    have hbn : b ≤ n := le_trans (by
      calc b = b ^ 1 := (pow_one b).symm
        _ ≤ b ^ (j + 1) := Nat.pow_le_pow_right (by omega) (by omega)) hkn
    have hn : n ≠ 0 := by omega
    have hq : n / b ≠ 0 := by
      have : 1 ≤ n / b := (Nat.one_le_div_iff (by omega)).mpr hbn
      omega
    rw [toBaseDigits_step b n hb hn, if_neg hq]
    have hdiv : b ^ j ≤ n / b := by
      rw [Nat.le_div_iff_mul_le (by omega : 0 < b)]
      calc b ^ j * b = b ^ (j + 1) := (pow_succ b j).symm
        _ ≤ n := hkn
    have := ih (n / b) hdiv
    simp only [List.length_append, List.length_singleton]
    omega

theorem toBaseDigits_single (b n : Nat) (hb : 2 ≤ b) (h : n < b) :
    toBaseDigits b n = [n] := by
  by_cases hn : n = 0
  · subst hn; rfl
  · rw [toBaseDigits_step b n hb hn, if_pos (Nat.div_eq_of_lt h)]
    simp [Nat.mod_eq_of_lt h]

/-! ### The default-comparator sort -/

theorem strLe_total : ∀ a b : List Nat, strLe a b = true ∨ strLe b a = true := by
  intro a
  induction a with
  | nil => intro b; left; rfl
  | cons x as ih =>
    intro b
    cases b with
    | nil => right; rfl
    | cons y bs =>
      simp only [strLe]
      rcases Nat.lt_trichotomy x y with h | h | h
      · left; rw [if_pos h]
      · subst h
        rcases ih bs with hab | hba
        · left; rw [if_neg (by omega), if_neg (by omega)]; exact hab
        · right; rw [if_neg (by omega), if_neg (by omega)]; exact hba
      · right; rw [if_pos h]

theorem jsLe_total (a b : Nat) : jsLe a b = true ∨ jsLe b a = true :=
  strLe_total (decDigits a) (decDigits b)

theorem insertBy_perm (le : Nat → Nat → Bool) (a : Nat) :
    ∀ l, List.Perm (insertBy le a l) (a :: l) := by
  intro l
  induction l with
  | nil => simp [insertBy]
  | cons b l ih =>
    simp only [insertBy]
    by_cases h : le a b = true
    · rw [if_pos h]
    · rw [if_neg h]
      exact List.Perm.trans (List.Perm.cons b ih) (List.Perm.swap a b l)

theorem sortBy_perm (le : Nat → Nat → Bool) :
    ∀ l, List.Perm (sortBy le l) l := by
  intro l
  induction l with
  | nil => simp [sortBy]
  | cons a l ih =>
    simp only [sortBy]
    exact List.Perm.trans (insertBy_perm le a (sortBy le l)) (List.Perm.cons a ih)

theorem insertBy_chain (le : Nat → Nat → Bool)
    (htot : ∀ x y, le x y = true ∨ le y x = true) (a : Nat) :
    ∀ l, List.Chain' (fun x y => le x y = true) l →
      List.Chain' (fun x y => le x y = true) (insertBy le a l) := by
  intro l
  induction l with
  | nil => intro _; simp [insertBy]
  | cons b l ih =>
    intro h
    simp only [insertBy]
    by_cases hab : le a b = true
    · rw [if_pos hab]
      exact List.Chain'.cons hab h
    · rw [if_neg hab]
      have hba : le b a = true := (htot a b).resolve_left hab
      have htail : List.Chain' (fun x y => le x y = true) l := h.tail
      have hins := ih htail
      rw [List.chain'_cons']
      refine ⟨?_, hins⟩
      intro y hy
      cases l with
      | nil =>
        simp [insertBy] at hy
        subst hy; exact hba
      | cons c l' =>
        simp only [insertBy] at hy
        by_cases hac : le a c = true
        · rw [if_pos hac] at hy
          simp at hy
          subst hy; exact hba
        · rw [if_neg hac] at hy
          simp at hy
          subst hy
          exact (List.chain'_cons.mp h).1

theorem sortBy_chain (le : Nat → Nat → Bool)
    (htot : ∀ x y, le x y = true ∨ le y x = true) :
    ∀ l, List.Chain' (fun x y => le x y = true) (sortBy le l) := by
  intro l
  induction l with
  | nil => simp [sortBy]
  | cons a l ih =>
    simp only [sortBy]
    exact insertBy_chain le htot a (sortBy le l) ih

theorem sortBy_eq_of_chain (le : Nat → Nat → Bool) :
    ∀ l, List.Chain' (fun x y => le x y = true) l → sortBy le l = l := by
  intro l
  induction l with
  | nil => intro _; rfl
  | cons a l ih =>
    intro h
    simp only [sortBy]
    rw [ih h.tail]
    cases l with
    | nil => rfl
    | cons c l' =>
      simp only [insertBy]
      rw [if_pos (List.chain'_cons.mp h).1]

theorem jsSort_perm (l : List Nat) : List.Perm (jsSort l) l :=
  sortBy_perm jsLe l

theorem jsSort_jsSort (l : List Nat) : jsSort (jsSort l) = jsSort l :=
  sortBy_eq_of_chain jsLe (jsSort l) (sortBy_chain jsLe jsLe_total l)

theorem dedupFirstAux_not_mem_seen :
    ∀ l seen, ∀ x ∈ dedupFirstAux l seen, x ∉ seen := by
  intro l
  induction l with
  | nil => intro seen x hx; simp [dedupFirstAux] at hx
  | cons a l ih =>
    intro seen x hx
    simp only [dedupFirstAux] at hx
    by_cases ha : a ∈ seen
    · rw [if_pos ha] at hx
      exact ih seen x hx
    · rw [if_neg ha] at hx
      rcases List.mem_cons.mp hx with h | h
      · subst h; exact ha
      · have := ih (a :: seen) x h
        intro hxs
        exact this (List.mem_cons_of_mem _ hxs)

theorem dedupFirstAux_nodup : ∀ l seen, (dedupFirstAux l seen).Nodup := by
  intro l
  induction l with
  | nil => intro seen; simp [dedupFirstAux]
  | cons a l ih =>
    intro seen
    simp only [dedupFirstAux]
    by_cases ha : a ∈ seen
    · rw [if_pos ha]; exact ih seen
    · rw [if_neg ha]
      refine List.Nodup.cons ?_ (ih (a :: seen))
      intro hmem
      exact dedupFirstAux_not_mem_seen l (a :: seen) a hmem (List.mem_cons_self _ _)

theorem dedupFirst_nodup (l : List Nat) : (dedupFirst l).Nodup :=
  dedupFirstAux_nodup l []

theorem publicInputWitnesses_nodup (abi : Abi) :
    (publicInputWitnesses abi).Nodup := by
  unfold publicInputWitnesses
  exact (jsSort_perm _).nodup_iff.mpr (dedupFirst_nodup _)

theorem jsSort_publicInputWitnesses (abi : Abi) :
    jsSort (publicInputWitnesses abi) = publicInputWitnesses abi := by
  unfold publicInputWitnesses
  exact jsSort_jsSort _

/-! ### Chunking and flattening -/

theorem chunk32Aux_fuel :
    ∀ (n : Nat) (l : List Nat) (f g : Nat), l.length = n → n ≤ f → n ≤ g →
      chunk32Aux f l = chunk32Aux g l := by
  intro n
  induction n using Nat.strong_induction_on with
  | _ n ih =>
    intro l f g hn hf hg
    cases l with
    | nil => cases f <;> cases g <;> rfl
    | cons a as =>
      have hpos : 1 ≤ n := by subst hn; simp
      cases f with
      | zero => omega
      | succ f' =>
        cases g with
        | zero => omega
        | succ g' =>
          simp only [chunk32Aux]
          have hlen : ((a :: as).drop 32).length = n - 32 := by
            rw [List.length_drop, hn]
          exact
            congrArg _ (ih (n - 32) (by omega) _ f' g' hlen (by omega) (by omega))

theorem chunk32_cons (l : List Nat) (h : l ≠ []) :
    chunk32 l = l.take 32 :: chunk32 (l.drop 32) := by
  cases l with
  | nil => exact absurd rfl h
  | cons a as =>
    show chunk32Aux (a :: as).length (a :: as) = _
    rw [List.length_cons]
    simp only [chunk32Aux]
    refine congrArg _ ?_
    exact chunk32Aux_fuel ((a :: as).drop 32).length _ _ _ rfl
      (by rw [List.length_drop, List.length_cons]; omega) le_rfl

theorem chunk32_flatten : ∀ (n : Nat) (l : List Nat), l.length ≤ n →
    (chunk32 l).flatten = l := by
  intro n
  induction n with
  | zero =>
    intro l hl
    have : l = [] := List.length_eq_zero.mp (by omega)
    subst this; rfl
  | succ n ih =>
    intro l hl
    by_cases h : l = []
    · subst h; rfl
    · rw [chunk32_cons l h]
      have hlen : (l.drop 32).length ≤ n := by
        rw [List.length_drop]
        have : 1 ≤ l.length := List.length_pos.mpr h
        omega
      rw [List.flatten_cons, ih (l.drop 32) hlen, List.take_append_drop]

theorem chunk32_exact :
    ∀ (n : Nat) (l : List Nat), l.length = 32 * n →
      (chunk32 l).length = n ∧ ∀ c ∈ chunk32 l, c.length = 32 := by
  intro n
  induction n with
  | zero =>
    intro l hl
    have : l = [] := List.length_eq_zero.mp (by omega)
    subst this
    exact ⟨rfl, by intro c hc; simp [chunk32, chunk32Aux] at hc⟩
  | succ n ih =>
    intro l hl
    have hne : l ≠ [] := by
      intro h; subst h; rw [List.length_nil] at hl; omega
    rw [chunk32_cons l hne]
    have htake : (l.take 32).length = 32 := by
      rw [List.length_take]; omega
    have hdrop : (l.drop 32).length = 32 * n := by
      rw [List.length_drop]; omega
    rcases ih (l.drop 32) hdrop with ⟨hlen, hmem⟩
    constructor
    · rw [List.length_cons, hlen]
    · intro c hc
      rcases List.mem_cons.mp hc with h | h
      · subst h; exact htake
      · exact hmem c h

theorem foldl_append_eq :
    ∀ (arrays : List (List Nat)) (acc : List Nat),
      List.foldl (fun acc arr => acc ++ arr) acc arrays = acc ++ arrays.flatten := by
  intro arrays
  induction arrays with
  | nil => intro acc; simp
  | cons a l ih =>
    intro acc
    simp only [List.foldl_cons, List.flatten_cons]
    rw [ih (acc ++ a), List.append_assoc]

theorem flattenUint8Arrays_eq_flatten (arrays : List (List Nat)) :
    flattenUint8Arrays arrays = arrays.flatten := by
  unfold flattenUint8Arrays
  rw [foldl_append_eq arrays []]
  rfl

/-! ### Option helpers and map lookup -/

theorem optionMap_congr (f g : Nat → Option (List Nat)) :
    ∀ l, (∀ a ∈ l, f a = g a) → optionMap f l = optionMap g l := by
  intro l
  induction l with
  | nil => intro _; rfl
  | cons a l ih =>
    intro h
    simp only [optionMap]
    rw [h a (List.mem_cons_self _ _), ih (fun x hx => h x (List.mem_cons_of_mem _ hx))]

theorem optionMap_lookup_zip :
    ∀ (ks : List Nat) (vs : List (List Nat)), ks.Nodup → ks.length = vs.length →
      (∀ c ∈ vs, hexToUint8Array (uint8ArrayToHex c) = c) →
      optionMap
        (fun k =>
          (mapGet ((ks.zip vs).map (fun p => (p.1, uint8ArrayToHex p.2))) k).map
            hexToUint8Array)
        ks = some vs := by
  intro ks
  induction ks with
  | nil =>
    intro vs _ hlen _
    have : vs = [] := List.length_eq_zero.mp (by simpa using hlen.symm)
    subst this; rfl
  | cons k ks ih =>
    intro vs hnodup hlen hround
    cases vs with
    | nil => simp at hlen
    | cons v vs' =>
      have hlen' : ks.length = vs'.length := by simpa using hlen
      have hk_not_mem : k ∉ ks := (List.nodup_cons.mp hnodup).1
      have hnodup' : ks.Nodup := (List.nodup_cons.mp hnodup).2
      simp only [optionMap]
      have hhead :
          (mapGet (((k :: ks).zip (v :: vs')).map
            (fun p => (p.1, uint8ArrayToHex p.2))) k).map hexToUint8Array = some v := by
        simp only [List.zip_cons_cons, List.map_cons, mapGet]
        rw [List.find?_cons_of_pos _ (by simp)]
        show some (hexToUint8Array (uint8ArrayToHex v)) = some v
        rw [hround v (List.mem_cons_self _ _)]
      rw [hhead]
      have htail :
          optionMap
            (fun x =>
              (mapGet (((k :: ks).zip (v :: vs')).map
                (fun p => (p.1, uint8ArrayToHex p.2))) x).map hexToUint8Array)
            ks = some vs' := by
        rw [optionMap_congr _
          (fun x =>
            (mapGet ((ks.zip vs').map (fun p => (p.1, uint8ArrayToHex p.2))) x).map
              hexToUint8Array)
          ks ?_]
        · exact ih vs' hnodup' hlen'
            (fun c hc => hround c (List.mem_cons_of_mem _ hc))
        · intro x hx
          have hkx : ¬ (((k, uint8ArrayToHex v).1 == x) = true) := by
            simp only [beq_iff_eq]
            intro heq
            subst heq
            exact hk_not_mem hx
          simp only [List.zip_cons_cons, List.map_cons, mapGet]
          have hfind :
              List.find? (fun p => p.1 == x)
                ((k, uint8ArrayToHex v) ::
                  List.map (fun p => (p.1, uint8ArrayToHex p.2)) (ks.zip vs')) =
              List.find? (fun p => p.1 == x)
                (List.map (fun p => (p.1, uint8ArrayToHex p.2)) (ks.zip vs')) :=
            List.find?_cons_of_neg _ hkx
          rw [hfind]
      rw [htail]

theorem map_snd_zip_take :
    ∀ (a : List Nat) (b : List (List Nat)), a.length ≤ b.length →
      (a.zip b).map Prod.snd = b.take a.length := by
  intro a
  induction a with
  | nil => intro b _; simp
  | cons x a ih =>
    intro b hb
    cases b with
    | nil => simp at hb
    | cons y b =>
      simp only [List.zip_cons_cons, List.map_cons, List.length_cons, List.take_succ_cons]
      rw [ih b (by simpa using hb)]

theorem map_mod256_eq_self :
    ∀ l : List Nat, (∀ x ∈ l, x < 256) → l.map (fun b => b % 256) = l := by
  intro l
  induction l with
  | nil => intro _; rfl
  | cons x l ih =>
    intro h
    simp only [List.map_cons]
    rw [Nat.mod_eq_of_lt (h x (List.mem_cons_self _ _)),
      ih (fun y hy => h y (List.mem_cons_of_mem _ hy))]

/-! ### The hex codec -/

theorem twoStepInduction {P : List Nat → Prop} (h0 : P []) (h1 : ∀ a, P [a])
    (h2 : ∀ a b l, P l → P (a :: b :: l)) : ∀ l, P l
  | [] => h0
  | [a] => h1 a
  | a :: b :: l => h2 a b l (twoStepInduction h0 h1 h2 l)

theorem hexPairsToBytes_length :
    ∀ l : List Nat, (hexPairsToBytes l).length = l.length / 2 := by
  refine twoStepInduction rfl (fun a => by simp [hexPairsToBytes]) ?_
  intro a b l ih
  show ((16 * a + b) :: hexPairsToBytes l).length = (a :: b :: l).length / 2
  simp only [List.length_cons, ih]
  omega

theorem hexPairsToBytes_mem_lt :
    ∀ l : List Nat, (∀ d ∈ l, d < 16) → ∀ y ∈ hexPairsToBytes l, y < 256 := by
  refine twoStepInduction ?_ ?_ ?_
  · intro _ y hy; simp [hexPairsToBytes] at hy
  · intro a _ y hy; simp [hexPairsToBytes] at hy
  · intro a b l ih h y hy
    have ha : a < 16 := h a (List.mem_cons_self _ _)
    have hb : b < 16 := h b (List.mem_cons_of_mem _ (List.mem_cons_self _ _))
    rcases List.mem_cons.mp hy with hh | hh
    · subst hh; omega
    · exact ih (fun d hd =>
        h d (List.mem_cons_of_mem _ (List.mem_cons_of_mem _ hd))) y hh

theorem hexPairsToBytes_val :
    ∀ l : List Nat, l.length % 2 = 0 →
      ∀ a, foldBase 256 a (hexPairsToBytes l) = foldBase 16 a l := by
  refine twoStepInduction ?_ ?_ ?_
  · intro _ _; rfl
  · intro a h; simp at h
  · intro d1 d2 l ih h a
    have hl : l.length % 2 = 0 := by
      simp only [List.length_cons] at h
      omega
    show foldBase 256 a ((16 * d1 + d2) :: hexPairsToBytes l) =
      foldBase 16 a (d1 :: d2 :: l)
    rw [foldBase_cons, foldBase_cons, foldBase_cons, ih hl]
    congr 1
    ring

theorem hexPairsToBytes_val_odd :
    ∀ l : List Nat, l.length % 2 = 1 →
      ∀ a, foldBase 256 a (hexPairsToBytes l) = foldBase 16 a l.dropLast := by
  refine twoStepInduction ?_ ?_ ?_
  · intro h; simp at h
  · intro x _ a; rfl
  · intro d1 d2 l ih h a
    have hl : l.length % 2 = 1 := by
      simp only [List.length_cons] at h
      omega
    have hdl : (d1 :: d2 :: l).dropLast = d1 :: d2 :: l.dropLast := by
      cases l with
      | nil => simp at hl
      | cons c cs => rfl
    show foldBase 256 a ((16 * d1 + d2) :: hexPairsToBytes l) =
      foldBase 16 a (d1 :: d2 :: l).dropLast
    rw [hdl, foldBase_cons, foldBase_cons, foldBase_cons, ih hl]
    congr 1
    ring

theorem dropLast_val (l : List Nat) (hne : l ≠ []) (hd : ∀ d ∈ l, d < 16) :
    foldBase 16 0 l.dropLast = foldBase 16 0 l / 16 := by
  have hsplit : l.dropLast ++ [l.getLast hne] = l := List.dropLast_append_getLast hne
  have hlast : l.getLast hne < 16 := hd _ (List.getLast_mem hne)
  have hval : foldBase 16 0 l = 16 * foldBase 16 0 l.dropLast + l.getLast hne := by
    conv_lhs => rw [← hsplit]
    rw [foldBase_append]
    rfl
  rw [hval, Nat.mul_add_div (by omega), Nat.div_eq_of_lt hlast]
  omega

theorem padStart64_length (l : List Nat) (h : l.length ≤ 64) :
    (padStart64 l).length = 64 := by
  unfold padStart64
  rw [List.length_append, List.length_replicate]
  omega

theorem foldBase_replicate_zero (b : Nat) :
    ∀ k, foldBase b 0 (List.replicate k 0) = 0 := by
  intro k
  induction k with
  | zero => rfl
  | succ k ih =>
    rw [List.replicate_succ, foldBase_cons]
    simpa using ih

theorem foldBase_padStart64 (b : Nat) (l : List Nat) :
    foldBase b 0 (padStart64 l) = foldBase b 0 l := by
  unfold padStart64
  rw [foldBase_append, foldBase_replicate_zero]

theorem padStart64_mem_lt (l : List Nat) (h : ∀ d ∈ l, d < 16) :
    ∀ d ∈ padStart64 l, d < 16 := by
  intro d hd
  rcases List.mem_append.mp hd with hh | hh
  · rw [List.eq_of_mem_replicate hh]; omega
  · exact h d hh

theorem byteToHexDigits_eq (b : Nat) (h : b < 256) :
    byteToHexDigits b = [b / 16, b % 16] := by
  unfold byteToHexDigits natToHex
  by_cases hb : b < 16
  · rw [toBaseDigits_single 16 b (by omega) hb]
    rw [if_pos (by rfl)]
    rw [Nat.div_eq_of_lt hb, Nat.mod_eq_of_lt hb]
  · have h16 : 16 ≤ b := by omega
    have hq1 : 1 ≤ b / 16 := (Nat.one_le_div_iff (by omega)).mpr h16
    have hqlt : b / 16 < 16 := by
      rw [Nat.div_lt_iff_lt_mul (by omega)]
      omega
    have hq0 : ¬(b / 16 = 0) := by omega
    rw [toBaseDigits_step 16 b (by omega) (by omega), if_neg hq0,
      toBaseDigits_single 16 (b / 16) (by omega) hqlt]
    simp

theorem uint8ArrayToHex_eq :
    ∀ v : List Nat, (∀ b ∈ v, b < 256) →
      uint8ArrayToHex v = v.flatMap (fun b => [b / 16, b % 16]) := by
  intro v
  induction v with
  | nil => intro _; rfl
  | cons b v ih =>
    intro h
    show byteToHexDigits b ++ uint8ArrayToHex v = _
    rw [byteToHexDigits_eq b (h b (List.mem_cons_self _ _)),
      ih (fun x hx => h x (List.mem_cons_of_mem _ hx)), List.flatMap_cons]

theorem foldBase_pairsOfBytes :
    ∀ v : List Nat, (∀ b ∈ v, b < 256) →
      ∀ a, foldBase 16 a (v.flatMap (fun b => [b / 16, b % 16])) = foldBase 256 a v := by
  intro v
  induction v with
  | nil => intro _ _; rfl
  | cons b v ih =>
    intro h a
    rw [List.flatMap_cons, foldBase_append]
    have hacc : foldBase 16 a [b / 16, b % 16] = 256 * a + b := by
      show 16 * (16 * a + b / 16) + b % 16 = 256 * a + b
      have := Nat.div_add_mod b 16
      omega
    rw [hacc, ih (fun x hx => h x (List.mem_cons_of_mem _ hx)) (256 * a + b),
      foldBase_cons]

theorem length_pairsOfBytes :
    ∀ v : List Nat, (v.flatMap (fun b => [b / 16, b % 16])).length = 2 * v.length := by
  intro v
  induction v with
  | nil => rfl
  | cons b v ih =>
    rw [List.flatMap_cons, List.length_append, ih, List.length_cons]
    simp
    omega

theorem hexToUint8Array_small (l : List Nat) (h : hexDigitsToNat l < 16 ^ 64) :
    (hexToUint8Array l).length = 32 ∧ (∀ y ∈ hexToUint8Array l, y < 256) ∧
      bytesToNat (hexToUint8Array l) = hexDigitsToNat l := by
  have key : hexToUint8Array l =
      hexPairsToBytes (padStart64 (natToHex (hexDigitsToNat l))) := rfl
  have hlen : (natToHex (hexDigitsToNat l)).length ≤ 64 :=
    toBaseDigits_length_le 16 (by omega) (hexDigitsToNat l) 64 (by omega) h
  have hpadlen : (padStart64 (natToHex (hexDigitsToNat l))).length = 64 :=
    padStart64_length _ hlen
  rw [key]
  refine ⟨?_, ?_, ?_⟩
  · rw [hexPairsToBytes_length, hpadlen]
  · exact hexPairsToBytes_mem_lt _
      (padStart64_mem_lt _ (toBaseDigits_mem_lt 16 (by omega) (hexDigitsToNat l)))
  · show foldBase 256 0 _ = _
    rw [hexPairsToBytes_val _ (by rw [hpadlen]) 0, foldBase_padStart64]
    exact foldBase_toBaseDigits 16 (by omega) (hexDigitsToNat l)

theorem pow256_32_eq : (256 : Nat) ^ 32 = 16 ^ 64 := by
  rw [show (256 : Nat) = 16 ^ 2 from rfl, ← pow_mul]

theorem hexRoundtrip32 (v : List Nat) (hlen : v.length = 32)
    (hb : ∀ x ∈ v, x < 256) :
    hexToUint8Array (uint8ArrayToHex v) = v := by
  have hval : hexDigitsToNat (uint8ArrayToHex v) = bytesToNat v := by
    show foldBase 16 0 _ = foldBase 256 0 v
    rw [uint8ArrayToHex_eq v hb]
    exact foldBase_pairsOfBytes v hb 0
  have hlt : bytesToNat v < 16 ^ 64 := by
    have h1 : bytesToNat v < 256 ^ v.length := foldBase_lt 256 (by omega) v hb
    rw [hlen, pow256_32_eq] at h1
    exact h1
  obtain ⟨hbslen, hbsmem, hbsval⟩ :=
    hexToUint8Array_small (uint8ArrayToHex v) (by rw [hval]; exact hlt)
  apply foldBase_inj 256 (by omega) _ v (by rw [hbslen, hlen]) hbsmem hb
  show foldBase 256 0 _ = foldBase 256 0 v
  have : bytesToNat (hexToUint8Array (uint8ArrayToHex v)) = bytesToNat v := by
    rw [hbsval, hval]
  exact this

theorem hexToUint8Array_congr (l1 l2 : List Nat)
    (h : hexDigitsToNat l1 = hexDigitsToNat l2) :
    hexToUint8Array l1 = hexToUint8Array l2 := by
  have k1 : hexToUint8Array l1 =
      hexPairsToBytes (padStart64 (natToHex (hexDigitsToNat l1))) := rfl
  have k2 : hexToUint8Array l2 =
      hexPairsToBytes (padStart64 (natToHex (hexDigitsToNat l2))) := rfl
  rw [k1, k2, h]

theorem flatten_segment :
    ∀ (arrays : List (List Nat)) (i : Nat) (c : List Nat), arrays[i]? = some c →
      (arrays.flatten.drop (((arrays.take i).map List.length).sum)).take c.length = c := by
  intro arrays
  induction arrays with
  | nil => intro i c h; simp at h
  | cons a tl ih =>
    intro i c h
    cases i with
    | zero =>
      rw [List.getElem?_cons_zero] at h
      have hac : a = c := by
        injection h
      subst hac
      simp only [List.take_zero, List.map_nil, List.sum_nil, List.drop_zero,
        List.flatten_cons]
      exact List.take_left a tl.flatten
    | succ i =>
      rw [List.getElem?_cons_succ] at h
      simp only [List.take_succ_cons, List.map_cons, List.sum_cons, List.flatten_cons]
      rw [List.drop_add, List.drop_left]
      exact ih i c h

/-! ### Claim theorems -/

/-- Claim C2 (code bug): the spec requires the public-input witness indices to
be traversed in ascending numeric order, and the code's own comment
(index.ts:113) says they are "sorted in ascending order"; but both
`generateProof` (index.ts:115) and `reconstructProofWithPublicInputs`
(index.ts:208) call `Array.prototype.sort()` with no comparator, which sorts
numbers as strings.  On an ABI whose public witness indices are `{2, 10}`
the code produces the order `[10, 2]`, not the ascending `[2, 10]`. -/
theorem claim_C2_default_sort_is_lexicographic :
    publicInputWitnesses c2Abi = [10, 2] ∧
    jsSort [2, 10] = [10, 2] ∧
    publicInputWitnesses c2Abi ≠ [2, 10] := by
  refine ⟨by decide, by decide, by decide⟩

/-- Claim C3: converting any 32-byte buffer to a hex string with
`uint8ArrayToHex` and back with `hexToUint8Array` returns the original
buffer exactly. -/
theorem claim_C3_hex_roundtrip (v : List Nat) (hlen : v.length = 32)
    (hb : ∀ x ∈ v, x < 256) :
    hexToUint8Array (uint8ArrayToHex v) = v :=
  hexRoundtrip32 v hlen hb

/-- Witness for C3 at the concrete 32-byte buffer `[0, 1, ..., 31]`. -/
theorem claim_C3_hex_roundtrip_witness :
    hexToUint8Array (uint8ArrayToHex (List.range 32)) = List.range 32 :=
  claim_C3_hex_roundtrip (List.range 32) (by decide) (by decide)

/-- Claim C5: `instantiate` is idempotent.  A call on an already-instantiated
backend issues no native call and leaves the state unchanged, and two
sequential calls from the constructor state issue the native setup sequence
exactly once. -/
theorem claim_C5_instantiate_idempotent :
    (∀ s : BackendState, s.apiSet = true → instantiate s = (s, [])) ∧
    (∀ s : BackendState, instantiate ((instantiate s).1) = ((instantiate s).1, [])) ∧
    (instantiate initialState).2 ++ (instantiate ((instantiate initialState).1)).2 =
      setupCalls := by
  refine ⟨?_, ?_, by decide⟩
  · intro s h
    unfold instantiate
    rw [if_pos h]
  · intro s
    rcases s with ⟨api, comp⟩
    cases api <;> simp [instantiate]

/-- Witness for C5 at the instantiated state. -/
theorem claim_C5_witness :
    instantiate ⟨true, true⟩ = (⟨true, true⟩, []) :=
  claim_C5_instantiate_idempotent.1 ⟨true, true⟩ rfl

/-- Claim C6: `destroy` on a backend that was never instantiated returns
without error, issues no native call and leaves the state unchanged. -/
theorem claim_C6_destroy_uninstantiated_noop :
    destroy initialState = (initialState, []) ∧
    ∀ s : BackendState, s.apiSet = false → destroy s = (s, []) := by
  refine ⟨rfl, ?_⟩
  intro s h
  simp [destroy, h]

/-- Witness for C6 at a state with `api` unset. -/
theorem claim_C6_witness :
    destroy ⟨false, true⟩ = (⟨false, true⟩, []) :=
  claim_C6_destroy_uninstantiated_noop.2 ⟨false, true⟩ rfl

/-- Claim C10: once `api` is set it stays set: `destroy` does not clear it,
so a later `instantiate` performs no setup and a second `destroy` calls the
native destroy again. -/
theorem claim_C10_api_never_cleared (s : BackendState) (h : s.apiSet = true) :
    (destroy s).1 = s ∧ (destroy s).1.apiSet = true ∧
    (destroy s).2 = [NativeCall.apiDestroy] ∧
    instantiate ((destroy s).1) = ((destroy s).1, []) ∧
    destroy ((destroy s).1) = (s, [NativeCall.apiDestroy]) := by
  simp [destroy, instantiate, h]

/-- Witness for C10 at the instantiated state. -/
theorem claim_C10_witness :
    (destroy ⟨true, true⟩).1 = ⟨true, true⟩ ∧
    (destroy ⟨true, true⟩).1.apiSet = true ∧
    (destroy ⟨true, true⟩).2 = [NativeCall.apiDestroy] ∧
    instantiate ((destroy ⟨true, true⟩).1) = ((destroy ⟨true, true⟩).1, []) ∧
    destroy ((destroy ⟨true, true⟩).1) = (⟨true, true⟩, [NativeCall.apiDestroy]) :=
  claim_C10_api_never_cleared ⟨true, true⟩ rfl

set_option maxRecDepth 8192 in
/-- Claim C7 counterexample: on the 66-hex-digit input `0x1000...0`
(value `16 ^ 65`, wider than 32 bytes), `hexToUint8Array` does not return a
32-byte result at all: it silently returns a 33-byte array, so the claim
that it "returns a wrong 32-byte result" for every over-wide value is
false. -/
theorem claim_C7_counterexample :
    hexToUint8Array wideHexInput = 16 :: List.replicate 32 0 ∧
    ¬ ((16 :: List.replicate 32 0).length = 32) := by
  refine ⟨by decide, by decide⟩

/-- Claim C7 amended: for a hex input whose value needs more than 32 bytes,
`hexToUint8Array` never raises a clear error.  When the value's minimal hex
representation has odd length, the fractional typed-array length is
truncated (ES2017+ ToIndex) and the final out-of-bounds write is ignored,
so the last hex digit is silently dropped: the result has `⌊L / 2⌋` bytes
and encodes `value / 16` — for a 65-digit value, exactly the silently wrong
32-byte result the original claim describes.  When the minimal
representation has even length, however, the function does not truncate: it
returns an array longer than 32 bytes encoding the full value. -/
theorem claim_C7_amended (l : List Nat) (hd : ∀ d ∈ l, d < 16)
    (h : 16 ^ 64 ≤ hexDigitsToNat l) :
    32 ≤ (hexToUint8Array l).length ∧
    (hexToUint8Array l).length = (natToHex (hexDigitsToNat l)).length / 2 ∧
    ((natToHex (hexDigitsToNat l)).length % 2 = 0 →
      32 < (hexToUint8Array l).length ∧
      bytesToNat (hexToUint8Array l) = hexDigitsToNat l) ∧
    ((natToHex (hexDigitsToNat l)).length % 2 = 1 →
      bytesToNat (hexToUint8Array l) = hexDigitsToNat l / 16 ∧
      hexDigitsToNat l / 16 ≠ hexDigitsToNat l) := by
  have key : hexToUint8Array l =
      hexPairsToBytes (padStart64 (natToHex (hexDigitsToNat l))) := rfl
  have hlen65 : 65 ≤ (natToHex (hexDigitsToNat l)).length :=
    toBaseDigits_length_ge 16 (by omega) 64 (hexDigitsToNat l) h
  have hpad : padStart64 (natToHex (hexDigitsToNat l)) =
      natToHex (hexDigitsToNat l) := by
    unfold padStart64
    rw [Nat.sub_eq_zero_of_le (by omega)]
    rfl
  rw [key, hpad]
  refine ⟨?_, ?_, ?_, ?_⟩
  · rw [hexPairsToBytes_length]
    omega
  · rw [hexPairsToBytes_length]
  · intro hpar
    refine ⟨?_, ?_⟩
    · rw [hexPairsToBytes_length]
      omega
    · show foldBase 256 0 _ = _
      rw [hexPairsToBytes_val _ hpar 0]
      exact foldBase_toBaseDigits 16 (by omega) _
  · intro hpar
    refine ⟨?_, ?_⟩
    · show foldBase 256 0 _ = _
      have hne2 : natToHex (hexDigitsToNat l) ≠ [] :=
        toBaseDigits_ne_nil 16 (hexDigitsToNat l) (by omega)
      have hd2 : ∀ d ∈ natToHex (hexDigitsToNat l), d < 16 :=
        toBaseDigits_mem_lt 16 (by omega) (hexDigitsToNat l)
      have hfold : foldBase 16 0 (natToHex (hexDigitsToNat l)) = hexDigitsToNat l :=
        foldBase_toBaseDigits 16 (by omega) (hexDigitsToNat l)
      rw [hexPairsToBytes_val_odd _ hpar 0, dropLast_val _ hne2 hd2, hfold]
    · have hpos : 0 < hexDigitsToNat l := by
        have : 0 < 16 ^ 64 := pow_pos (by omega) _
        omega
      have : hexDigitsToNat l / 16 < hexDigitsToNat l :=
        Nat.div_lt_self hpos (by omega)
      omega

set_option maxRecDepth 8192 in
/-- Witness for the amended C7 at the 65-digit input of value `16 ^ 64`,
which exercises the odd-length truncating branch. -/
theorem claim_C7_amended_witness :
    32 ≤ (hexToUint8Array oddWideHexInput).length ∧
    (hexToUint8Array oddWideHexInput).length =
      (natToHex (hexDigitsToNat oddWideHexInput)).length / 2 ∧
    ((natToHex (hexDigitsToNat oddWideHexInput)).length % 2 = 0 →
      32 < (hexToUint8Array oddWideHexInput).length ∧
      bytesToNat (hexToUint8Array oddWideHexInput) =
        hexDigitsToNat oddWideHexInput) ∧
    ((natToHex (hexDigitsToNat oddWideHexInput)).length % 2 = 1 →
      bytesToNat (hexToUint8Array oddWideHexInput) =
        hexDigitsToNat oddWideHexInput / 16 ∧
      hexDigitsToNat oddWideHexInput / 16 ≠ hexDigitsToNat oddWideHexInput) :=
  claim_C7_amended oddWideHexInput (by decide) (by decide)

/-- Claim C8: for a non-empty hex input whose value fits in 32 bytes,
`hexToUint8Array` zero-pads to exactly 64 hex digits and returns exactly the
32-byte big-endian encoding of the value; leading zeros in the input (which
`BigInt` discards while parsing) do not affect the result. -/
theorem claim_C8_hex_pads_to_32_bytes (l : List Nat) (hne : l ≠ [])
    (hd : ∀ d ∈ l, d < 16) (h : hexDigitsToNat l < 16 ^ 64) :
    (hexToUint8Array l).length = 32 ∧
    bytesToNat (hexToUint8Array l) = hexDigitsToNat l ∧
    hexToUint8Array (0 :: l) = hexToUint8Array l := by
  obtain ⟨h1, _, h3⟩ := hexToUint8Array_small l h
  refine ⟨h1, h3, ?_⟩
  refine hexToUint8Array_congr _ _ ?_
  show foldBase 16 (16 * 0 + 0) l = foldBase 16 0 l
  norm_num

/-- Witness for C8 at the input `0x10f`. -/
theorem claim_C8_witness :
    (hexToUint8Array [1, 0, 15]).length = 32 ∧
    bytesToNat (hexToUint8Array [1, 0, 15]) = hexDigitsToNat [1, 0, 15] ∧
    hexToUint8Array (0 :: [1, 0, 15]) = hexToUint8Array [1, 0, 15] :=
  claim_C8_hex_pads_to_32_bytes [1, 0, 15] (by decide) (by decide) (by decide)

/-- Claim C9: `flattenUint8Arrays` concatenates its inputs in order: the
output length is the sum of the input lengths, and the `i`-th input appears
contiguously at the offset equal to the total length of inputs `0..i-1`. -/
theorem claim_C9_flatten_concatenates (arrays : List (List Nat)) :
    (flattenUint8Arrays arrays).length = (arrays.map List.length).sum ∧
    ∀ i c, arrays[i]? = some c →
      ((flattenUint8Arrays arrays).drop (((arrays.take i).map List.length).sum)).take
        c.length = c := by
  rw [flattenUint8Arrays_eq_flatten]
  exact ⟨List.length_flatten arrays, fun i c h => flatten_segment arrays i c h⟩

/-- Claim C1: splitting a combined proof buffer as `generateProof` does and
reassembling the result with `reconstructProofWithPublicInputs` reproduces
the buffer bit-for-bit, for every byte buffer whose public-input region
holds exactly 32 bytes per public witness index of the circuit (and whose
tail is the fixed 2144-byte proof region). -/
theorem claim_C1_split_reconstruct_roundtrip (abi : Abi) (pw : List Nat)
    (hbytes : ∀ x ∈ pw, x < 256)
    (hlen : pw.length =
      32 * (publicInputWitnesses abi).length + numBytesInProofWithoutPublicInputs) :
    ∃ pd, generateProofPure abi pw = some pd ∧
      reconstructProofWithPublicInputs pd = some pw := by
  have hlen' : pw.length = 32 * (publicInputWitnesses abi).length + 2144 := hlen
  have hclamp : jsClampIndex pw.length
      ((pw.length : Int) - ((numBytesInProofWithoutPublicInputs : Nat) : Int)) =
      32 * (publicInputWitnesses abi).length := by
    show jsClampIndex pw.length ((pw.length : Int) - ((2144 : Nat) : Int)) = _
    unfold jsClampIndex
    split
    · omega
    · omega
  have hup : jsSliceUpTo pw
      ((pw.length : Int) - ((numBytesInProofWithoutPublicInputs : Nat) : Int)) =
      pw.take (32 * (publicInputWitnesses abi).length) := by
    unfold jsSliceUpTo
    rw [hclamp]
  have hfrom : jsSliceFrom pw
      ((pw.length : Int) - ((numBytesInProofWithoutPublicInputs : Nat) : Int)) =
      pw.drop (32 * (publicInputWitnesses abi).length) := by
    unfold jsSliceFrom
    rw [hclamp]
  have htakelen : (pw.take (32 * (publicInputWitnesses abi).length)).length =
      32 * (publicInputWitnesses abi).length := by
    rw [List.length_take]
    omega
  obtain ⟨hchlen, hchmem⟩ :=
    chunk32_exact (publicInputWitnesses abi).length _ htakelen
  have key : generateProofPure abi pw =
      if (publicInputWitnesses abi).length ≤
          (chunk32 (jsSliceUpTo pw
            ((pw.length : Int) -
              ((numBytesInProofWithoutPublicInputs : Nat) : Int)))).length then
        some { proof := jsSliceFrom pw
                 ((pw.length : Int) - ((numBytesInProofWithoutPublicInputs : Nat) : Int))
               publicInputs := ((publicInputWitnesses abi).zip
                 (chunk32 (jsSliceUpTo pw
                   ((pw.length : Int) -
                     ((numBytesInProofWithoutPublicInputs : Nat) : Int))))).map
                 (fun p => (p.1, uint8ArrayToHex p.2)) }
      else none := rfl
  rw [key, hup, hfrom, if_pos hchlen.ge]
  refine ⟨_, rfl, ?_⟩
  have hkeys : mapKeys (((publicInputWitnesses abi).zip
      (chunk32 (pw.take (32 * (publicInputWitnesses abi).length)))).map
      (fun p => (p.1, uint8ArrayToHex p.2))) = publicInputWitnesses abi := by
    unfold mapKeys
    rw [List.map_map]
    exact List.map_fst_zip _ _ hchlen.ge
  have rkey : reconstructProofWithPublicInputs
      { proof := pw.drop (32 * (publicInputWitnesses abi).length)
        publicInputs := ((publicInputWitnesses abi).zip
          (chunk32 (pw.take (32 * (publicInputWitnesses abi).length)))).map
          (fun p => (p.1, uint8ArrayToHex p.2)) } =
      match optionMap (fun index =>
          (mapGet (((publicInputWitnesses abi).zip
            (chunk32 (pw.take (32 * (publicInputWitnesses abi).length)))).map
            (fun p => (p.1, uint8ArrayToHex p.2))) index).map hexToUint8Array)
        (jsSort (mapKeys (((publicInputWitnesses abi).zip
          (chunk32 (pw.take (32 * (publicInputWitnesses abi).length)))).map
          (fun p => (p.1, uint8ArrayToHex p.2))))) with
      | none => none
      | some flat =>
        some ((flattenUint8Arrays flat ++
          pw.drop (32 * (publicInputWitnesses abi).length)).map (fun b => b % 256)) :=
    rfl
  rw [rkey, hkeys, jsSort_publicInputWitnesses abi]
  have hround : ∀ c ∈ chunk32 (pw.take (32 * (publicInputWitnesses abi).length)),
      hexToUint8Array (uint8ArrayToHex c) = c := by
    intro c hc
    refine hexRoundtrip32 c (hchmem c hc) ?_
    intro x hx
    refine hbytes x ?_
    have hxj : x ∈
        (chunk32 (pw.take (32 * (publicInputWitnesses abi).length))).flatten :=
      List.mem_flatten.mpr ⟨c, hc, hx⟩
    rw [chunk32_flatten (pw.take (32 * (publicInputWitnesses abi).length)).length _
      le_rfl] at hxj
    exact List.take_subset _ _ hxj
  have hmapM := optionMap_lookup_zip (publicInputWitnesses abi)
    (chunk32 (pw.take (32 * (publicInputWitnesses abi).length)))
    (publicInputWitnesses_nodup abi) hchlen.symm hround
  rw [hmapM]
  show some ((flattenUint8Arrays
      (chunk32 (pw.take (32 * (publicInputWitnesses abi).length))) ++
    pw.drop (32 * (publicInputWitnesses abi).length)).map (fun b => b % 256)) = some pw
  rw [flattenUint8Arrays_eq_flatten,
    chunk32_flatten (pw.take (32 * (publicInputWitnesses abi).length)).length _ le_rfl,
    List.take_append_drop, map_mod256_eq_self pw hbytes]

/-- Witness for C1: circuit with one public witness index and a 2176-byte
combined buffer of bytes `1`. -/
theorem claim_C1_witness :
    ∃ pd, generateProofPure c1Abi (List.replicate 2176 1) = some pd ∧
      reconstructProofWithPublicInputs pd = some (List.replicate 2176 1) :=
  claim_C1_split_reconstruct_roundtrip c1Abi (List.replicate 2176 1)
    (fun x hx => by rw [List.eq_of_mem_replicate hx]; omega)
    (by rw [List.length_replicate]; decide)

set_option maxRecDepth 4096 in
/-- Claim C4: `generateProof` returns as the proof exactly the final 2144
bytes of the combined buffer, and every public-input value is drawn from
the preceding prefix, split into consecutive 32-byte chunks, so the
2144-byte tail never contributes to a public-input value. -/
theorem claim_C4_split_uses_fixed_tail (abi : Abi) (pw : List Nat) (pd : ProofData)
    (hlen : numBytesInProofWithoutPublicInputs ≤ pw.length)
    (h : generateProofPure abi pw = some pd) :
    pd.proof = pw.drop (pw.length - numBytesInProofWithoutPublicInputs) ∧
    pd.proof.length = numBytesInProofWithoutPublicInputs ∧
    pd.publicInputs.map Prod.fst = publicInputWitnesses abi ∧
    pd.publicInputs.map Prod.snd =
      ((chunk32 (pw.take (pw.length - numBytesInProofWithoutPublicInputs))).take
        (publicInputWitnesses abi).length).map uint8ArrayToHex := by
  have hlen' : (2144 : Nat) ≤ pw.length := hlen
  have hclamp : jsClampIndex pw.length
      ((pw.length : Int) - ((numBytesInProofWithoutPublicInputs : Nat) : Int)) =
      pw.length - numBytesInProofWithoutPublicInputs := by
    show jsClampIndex pw.length ((pw.length : Int) - ((2144 : Nat) : Int)) =
      pw.length - 2144
    unfold jsClampIndex
    split
    · omega
    · omega
  have key : generateProofPure abi pw =
      if (publicInputWitnesses abi).length ≤
          (chunk32 (jsSliceUpTo pw
            ((pw.length : Int) -
              ((numBytesInProofWithoutPublicInputs : Nat) : Int)))).length then
        some { proof := jsSliceFrom pw
                 ((pw.length : Int) - ((numBytesInProofWithoutPublicInputs : Nat) : Int))
               publicInputs := ((publicInputWitnesses abi).zip
                 (chunk32 (jsSliceUpTo pw
                   ((pw.length : Int) -
                     ((numBytesInProofWithoutPublicInputs : Nat) : Int))))).map
                 (fun p => (p.1, uint8ArrayToHex p.2)) }
      else none := rfl
  have hup : jsSliceUpTo pw
      ((pw.length : Int) - ((numBytesInProofWithoutPublicInputs : Nat) : Int)) =
      pw.take (pw.length - numBytesInProofWithoutPublicInputs) := by
    unfold jsSliceUpTo
    rw [hclamp]
  have hfrom : jsSliceFrom pw
      ((pw.length : Int) - ((numBytesInProofWithoutPublicInputs : Nat) : Int)) =
      pw.drop (pw.length - numBytesInProofWithoutPublicInputs) := by
    unfold jsSliceFrom
    rw [hclamp]
  rw [key, hup, hfrom] at h
  obtain ⟨m, hm⟩ : ∃ m, pw.length - numBytesInProofWithoutPublicInputs = m := ⟨_, rfl⟩
  rw [hm] at h ⊢
  have hm' : pw.length - 2144 = m := hm
  by_cases hcond : (publicInputWitnesses abi).length ≤
      (chunk32 (pw.take m)).length
  · rw [if_pos hcond] at h
    injection h with h2
    subst h2
    refine ⟨?_, ?_, ?_, ?_⟩
    · rfl
    · rw [List.length_drop]
      show pw.length - m = 2144
      omega
    · show (((publicInputWitnesses abi).zip _).map _).map Prod.fst = _
      rw [List.map_map]
      exact List.map_fst_zip _ _ hcond
    · show (((publicInputWitnesses abi).zip _).map _).map Prod.snd = _
      rw [List.map_map]
      have hcomp : (Prod.snd ∘ fun p : Nat × List Nat => (p.1, uint8ArrayToHex p.2)) =
          uint8ArrayToHex ∘ Prod.snd := rfl
      rw [hcomp, ← List.map_map, map_snd_zip_take _ _ hcond]
  · rw [if_neg hcond] at h
    exact absurd h (by simp)

/-- Evaluation of `generateProofPure` on a circuit with no public inputs and
a buffer that is all proof tail (used to instantiate theorems concretely
without element-by-element evaluation of a 2144-byte list). -/
theorem generateProofPure_no_public (abi : Abi) (pw : List Nat)
    (hw : publicInputWitnesses abi = [])
    (hlen : pw.length = numBytesInProofWithoutPublicInputs) :
    generateProofPure abi pw = some ⟨pw, []⟩ := by
  have hlen' : pw.length = 2144 := hlen
  have hclamp : jsClampIndex pw.length
      ((pw.length : Int) - ((numBytesInProofWithoutPublicInputs : Nat) : Int)) = 0 := by
    show jsClampIndex pw.length ((pw.length : Int) - ((2144 : Nat) : Int)) = 0
    unfold jsClampIndex
    split
    · omega
    · omega
  have key : generateProofPure abi pw =
      if (publicInputWitnesses abi).length ≤
          (chunk32 (jsSliceUpTo pw
            ((pw.length : Int) -
              ((numBytesInProofWithoutPublicInputs : Nat) : Int)))).length then
        some { proof := jsSliceFrom pw
                 ((pw.length : Int) - ((numBytesInProofWithoutPublicInputs : Nat) : Int))
               publicInputs := ((publicInputWitnesses abi).zip
                 (chunk32 (jsSliceUpTo pw
                   ((pw.length : Int) -
                     ((numBytesInProofWithoutPublicInputs : Nat) : Int))))).map
                 (fun p => (p.1, uint8ArrayToHex p.2)) }
      else none := rfl
  have hup : jsSliceUpTo pw
      ((pw.length : Int) - ((numBytesInProofWithoutPublicInputs : Nat) : Int)) = [] := by
    unfold jsSliceUpTo
    rw [hclamp]
    exact List.take_zero pw
  have hfrom : jsSliceFrom pw
      ((pw.length : Int) - ((numBytesInProofWithoutPublicInputs : Nat) : Int)) = pw := by
    unfold jsSliceFrom
    rw [hclamp]
    exact List.drop_zero pw
  rw [key, hup, hfrom, hw]
  rfl

/-- Witness for C4: the empty ABI with a 2144-byte all-zero buffer. -/
theorem claim_C4_witness :
    ProofData.proof ⟨List.replicate 2144 0, []⟩ =
      (List.replicate 2144 0).drop
        ((List.replicate 2144 0).length - numBytesInProofWithoutPublicInputs) ∧
    (ProofData.proof ⟨List.replicate 2144 0, []⟩).length =
      numBytesInProofWithoutPublicInputs ∧
    (ProofData.publicInputs ⟨List.replicate 2144 0, []⟩).map Prod.fst =
      publicInputWitnesses emptyAbi ∧
    (ProofData.publicInputs ⟨List.replicate 2144 0, []⟩).map Prod.snd =
      ((chunk32 ((List.replicate 2144 0).take
        ((List.replicate 2144 0).length - numBytesInProofWithoutPublicInputs))).take
        (publicInputWitnesses emptyAbi).length).map uint8ArrayToHex :=
  claim_C4_split_uses_fixed_tail emptyAbi (List.replicate 2144 0)
    ⟨List.replicate 2144 0, []⟩
    (by rw [List.length_replicate]; decide)
    (generateProofPure_no_public emptyAbi (List.replicate 2144 0) (by decide)
      (by rw [List.length_replicate]; rfl))

/-- Witness for C9 at `[[1,2],[],[3,4,5],[6]]` and index 2. -/
theorem claim_C9_witness :
    (flattenUint8Arrays c9Arrays).length = (c9Arrays.map List.length).sum ∧
    ((flattenUint8Arrays c9Arrays).drop (((c9Arrays.take 2).map List.length).sum)).take
      ([3, 4, 5] : List Nat).length = [3, 4, 5] :=
  ⟨(claim_C9_flatten_concatenates c9Arrays).1,
    (claim_C9_flatten_concatenates c9Arrays).2 2 [3, 4, 5] (by decide)⟩

end Noir
